import Mathlib

/-!
Verification of the PumpRoom publish GitHub action (src/main.ts).

The TypeScript source is shallowly embedded: the filesystem is a tree of
named files and directories, Node path joining is string concatenation with
a slash, JS substring search (String.prototype.includes) is list-infix
search on the character data, and the effectful pipeline is modelled by
passing the outcome of each I/O step explicitly.
-/

/-- JS `s.includes(pat)`: `pat` occurs in `s` as a contiguous substring. -/
def strContains (s pat : String) : Bool := decide (pat.data <:+: s.data)

/-- JS `s.toLowerCase()` (ASCII-faithful model). -/
def toLowerStr (s : String) : String := ⟨s.data.map Char.toLower⟩

/-- Node `path.join(a, b)` for plain relative segments (POSIX). -/
def pathJoin (a b : String) : String := a ++ "/" ++ b

/-- Node `path.basename`: the part after the last slash. -/
def basenameStr (s : String) : String :=
  ⟨(s.data.reverse.takeWhile (fun c => c != '/')).reverse⟩

/-- Node `path.dirname`: the part before the last slash, `"."` if none. -/
def dirnameStr (s : String) : String :=
  match s.data.reverse.dropWhile (fun c => c != '/') with
  | [] => "."
  | _ :: rest => ⟨rest.reverse⟩

/-- A JS number field that may be absent at runtime (`undefined`). -/
def jsNumToString : Option Nat → String
  | some n => toString n
  | none => "undefined"

/-- The `PumpRoomApiResponse` interface of src/main.ts.  The TS type
declares plain numbers; fields are `Option Nat` here because a JS record
may omit a declared field at runtime, in which case interpolation prints
`undefined`. -/
structure PumpRoomApiResponse where
  pushed_at : String
  tasks_uploaded : Option Nat
  tasks_created : Option Nat
  tasks_updated : Option Nat
  tasks_deleted : Option Nat
  tasks_retained : Option Nat
deriving DecidableEq

/-- `formatPumpRoomResponse` of src/main.ts.  `toLocaleString` abstracts
`new Date(x).toLocaleString()`, the only environment-dependent step. -/
def formatPumpRoomResponse (toLocaleString : String → String)
    (response : PumpRoomApiResponse) : String :=
  let formattedDate := toLocaleString response.pushed_at
  "\n📊 PumpRoom Repository Update Summary:\n" ++
  "━━━━━━━━━━━━━━━━━━━━━━━━━━━━━━━━━━━━━━━━\n" ++
  "🕒 Pushed At: " ++ formattedDate ++ "\n\n" ++
  "📋 Tasks Summary:\n" ++
  "  • Uploaded: " ++ jsNumToString response.tasks_uploaded ++ "\n" ++
  "  • Created: " ++ jsNumToString response.tasks_created ++ "\n" ++
  "  • Updated: " ++ jsNumToString response.tasks_updated ++ "\n" ++
  "  • Deleted: " ++ jsNumToString response.tasks_deleted ++ "\n" ++
  "  • Retained: " ++ jsNumToString response.tasks_retained ++ "\n" ++
  "━━━━━━━━━━━━━━━━━━━━━━━━━━━━━━━━━━━━━━━━\n"

/-- The literal response record of the repository's own unit test
(`Formats the API response correctly`), restricted to the fields the
source formatter reads: `tasks_uploaded` and `tasks_retained` are absent
in that record, the others are 0/33/1. -/
def testResponseRecord : PumpRoomApiResponse :=
  ⟨"2025-07-30T21:26:10.875969", none, some 0, some 33, some 1, none⟩

/-- A concrete en-US rendering of the test record's timestamp. -/
def testLocaleDate : String := "7/30/2025, 9:26:10 PM"

/-- One immediate child of the scanned root, as classified by
`fs.statSync(...).isDirectory()` in `validateUniqueFolderNames`. -/
structure FolderItem where
  name : String
  isDirectory : Bool
deriving DecidableEq

/-- The directory names among the listed items, in listing order. -/
def foldersOf (items : List FolderItem) : List String :=
  (items.filter (fun i => i.isDirectory)).map (fun i => i.name)

/-- One step of building the JS `Map<string, string[]>` `folderMap`:
insertion keeps first-come key order, values accumulate in push order. -/
def insertFolder (m : List (String × List String)) (folder : String) :
    List (String × List String) :=
  if m.any (fun p => p.1 == toLowerStr folder) then
    m.map (fun p => if p.1 == toLowerStr folder then (p.1, p.2 ++ [folder]) else p)
  else m ++ [(toLowerStr folder, [folder])]

/-- The `folderMap` of `validateUniqueFolderNames`. -/
def buildFolderMap (folders : List String) : List (String × List String) :=
  folders.foldl insertFolder []

/-- JS `folderMap.get(k)` with the `?? []` reading the source's
`variants?.join` gives an absent key. -/
def lookupKey (m : List (String × List String)) (k : String) : List String :=
  ((m.find? (fun p => p.1 == k)).map (fun p => p.2)).getD []

/-- The core of `validateUniqueFolderNames` (src/main.ts lines 52-104):
collect directory names, group case-insensitively, and throw one error
listing every collision.  The surrounding try/catch is modelled
separately. -/
def checkFolderNames (items : List FolderItem) : Except String Unit :=
  let folders := foldersOf items
  if folders.length = 0 then .ok ()
  else
    let folderMap := buildFolderMap folders
    let duplicates := (folderMap.filter (fun p => 1 < p.2.length)).map (fun p => p.1)
    if 0 < duplicates.length then
      .error ("❌ Folder duplicates found:\n" ++
        String.join (duplicates.map (fun d =>
          "  • " ++ d ++ " (variants: " ++
          String.intercalate ", " (lookupKey folderMap d) ++ ")\n")))
    else .ok ()

/-- A value raised by JS code: either a standard `Error` carrying a
message, or any non-`Error` value. -/
inductive Thrown where
  | err : String → Thrown
  | nonError : Thrown
deriving DecidableEq

/-- `validateUniqueFolderNames` of src/main.ts with its try/catch:
`readdir` is the outcome of the `fs.readdirSync`/`statSync` enumeration;
a non-`Error` raised value is normalized to the stage sentinel, a
standard `Error` is rethrown unchanged. -/
def validateUniqueFolderNames (readdir : Except Thrown (List FolderItem)) :
    Except Thrown Unit :=
  match readdir with
  | .error t =>
      match t with
      | .err m => .error (.err m)
      | .nonError => .error (.err "Unknown error during folder validation")
  | .ok items =>
      match checkFolderNames items with
      | .ok _ => .ok ()
      | .error msg => .error (.err msg)

/-- Outcome of the `axios.post` call in `validateInzhenerkaYml`: resolved
with a status, rejected with an axios error (with or without a server
response), rejected with a plain `Error`, or rejected with a non-`Error`
value. -/
inductive AxiosOutcome where
  | ok : Nat → AxiosOutcome
  | axiosErrResp : Nat → String → AxiosOutcome
  | axiosErrNoResp : String → AxiosOutcome
  | thrownErr : String → AxiosOutcome
  | thrownNonError : AxiosOutcome
deriving DecidableEq

/-- Environment of one `validateInzhenerkaYml` call: whether
`.inzhenerka.yml` exists beneath the root, its text, and how the network
call would behave if made. -/
structure YmlEnv where
  fileExists : Bool
  configContent : String
  post : AxiosOutcome
deriving DecidableEq

/-- An outbound HTTP request (url and serialized body). -/
structure HttpRequest where
  url : String
  body : String
deriving DecidableEq

/-- The schema-validation endpoint URL of src/main.ts. -/
def inzhenerkaUrl : String :=
  "https://pumproom-api.inzhenerka-cloud.com/inzhenerka_schema"

/-- `JSON.stringify(\x7b config_yml: configContent \x7d)`. -/
def jsonBody (configContent : String) : String :=
  "\x7b\"config_yml\":\"" ++ configContent ++ "\"\x7d"

/-- `validateInzhenerkaYml` of src/main.ts (lines 121-174).  Returns the
overall outcome together with the list of HTTP requests performed, so
that "no network call made" is expressible.  The missing-file throw is a
standard `Error`, so the catch rethrows it unchanged. -/
def validateInzhenerkaYml (env : YmlEnv) : Except Thrown Unit × List HttpRequest :=
  if env.fileExists then
    let req : HttpRequest := ⟨inzhenerkaUrl, jsonBody env.configContent⟩
    match env.post with
    | .ok status =>
        if status = 200 then (.ok (), [req])
        else (.error (.err ("❌ Configuration is invalid. HTTP status: " ++
          toString status)), [req])
    | .axiosErrResp status data =>
        (.error (.err ("❌ Configuration validation failed:\n" ++
          "Status code: " ++ toString status ++ "\n" ++
          "Response: " ++ data ++ "\n")), [req])
    | .axiosErrNoResp m =>
        (.error (.err ("❌ Configuration validation failed:\n" ++
          "Error: " ++ m ++ "\n")), [req])
    | .thrownErr m => (.error (.err m), [req])
    | .thrownNonError =>
        (.error (.err "Unknown error during configuration validation"), [req])
  else (.error (.err "❌ .inzhenerka.yml file not found"), [])

/-- Externally visible events of one `run` invocation, in order. -/
inductive RunEvent where
  | folderValidated
  | ymlValidated
  | archiveCreated
  | archiveUploaded
  | unlinkedTempZip
deriving DecidableEq

/-- Result of `run`: the `core.setFailed` message if any, and the ordered
completed-stage/cleanup events. -/
structure RunOutcome where
  failedMsg : Option String
  events : List RunEvent
deriving DecidableEq

/-- Environment of one `run` invocation: the outcome of each effectful
stage, fed in sequentially. -/
structure RunEnv where
  readdir : Except Thrown (List FolderItem)
  yml : YmlEnv
  zipResult : Except Thrown Unit
  uploadResult : Except Thrown Unit

/-- Message reported by `run`'s catch block: the error's own message for
a standard `Error`, a generic fallback otherwise. -/
def thrownMessage : Thrown → String
  | .err m => m
  | .nonError => "An unknown error occurred"

/-- `run` of src/main.ts (lines 181-228): validate folders, validate the
config, archive, upload, then unlink the temporary archive; any raised
failure transitions straight to the catch block. -/
def run (env : RunEnv) : RunOutcome :=
  match validateUniqueFolderNames env.readdir with
  | .error t => ⟨some (thrownMessage t), []⟩
  | .ok _ =>
    match (validateInzhenerkaYml env.yml).1 with
    | .error t => ⟨some (thrownMessage t), [.folderValidated]⟩
    | .ok _ =>
      match env.zipResult with
      | .error t => ⟨some (thrownMessage t), [.folderValidated, .ymlValidated]⟩
      | .ok _ =>
        match env.uploadResult with
        | .error t =>
            ⟨some (thrownMessage t),
             [.folderValidated, .ymlValidated, .archiveCreated]⟩
        | .ok _ =>
            ⟨none,
             [.folderValidated, .ymlValidated, .archiveCreated,
              .archiveUploaded, .unlinkedTempZip]⟩

mutual
/-- A filesystem entry as seen by the walker: a regular file or a
directory with its children. -/
inductive FSTree where
  | file : String → FSTree
  | dir : String → FSForest → FSTree
/-- A directory listing (`fs.readdirSync` order). -/
inductive FSForest where
  | nil : FSForest
  | cons : FSTree → FSForest → FSForest
end

/-- The name of an entry, as returned by `fs.readdirSync`. -/
def FSTree.name : FSTree → String
  | .file n => n
  | .dir n _ => n

/-- One `zip.addLocalFile(itemPath, dirname, basename)` call: the source
path and the archive-internal directory/base-name pair. -/
structure ZipEntry where
  srcPath : String
  zipDir : String
  zipName : String
deriving DecidableEq

/-- Trace of one walk: files added to the archive, paths that passed the
ignore check (and were stat'ed / descended into), and paths skipped by
the ignore check. -/
structure WalkResult where
  entries : List ZipEntry
  visited : List String
  skippedPaths : List String
deriving DecidableEq

/-- Concatenation of walk traces, in traversal order. -/
def WalkResult.app (a b : WalkResult) : WalkResult :=
  ⟨a.entries ++ b.entries, a.visited ++ b.visited,
   a.skippedPaths ++ b.skippedPaths⟩

mutual
/-- `addFilesToZip` of `createZipArchive` (src/main.ts lines 247-277):
iterate the listing in order, handling each item. -/
def addFilesToZip (ignoreList : List String) (currentPath relativePath : String) :
    FSForest → WalkResult
  | .nil => ⟨[], [], []⟩
  | .cons item rest =>
      WalkResult.app (addOneItem ignoreList currentPath relativePath item)
        (addFilesToZip ignoreList currentPath relativePath rest)
/-- The loop body of `addFilesToZip`: compute the full and relative
paths, skip when any ignore fragment occurs in the full path, recurse
into directories, add files. -/
def addOneItem (ignoreList : List String) (currentPath relativePath : String) :
    FSTree → WalkResult
  | .file n =>
      let itemPath := pathJoin currentPath n
      let itemRelativePath := if relativePath = "" then n else pathJoin relativePath n
      if ignoreList.any (fun ig => strContains itemPath ig) then ⟨[], [], [itemPath]⟩
      else ⟨[⟨itemPath, dirnameStr itemRelativePath, basenameStr itemRelativePath⟩],
            [itemPath], []⟩
  | .dir n children =>
      let itemPath := pathJoin currentPath n
      let itemRelativePath := if relativePath = "" then n else pathJoin relativePath n
      if ignoreList.any (fun ig => strContains itemPath ig) then ⟨[], [], [itemPath]⟩
      else
        let sub := addFilesToZip ignoreList itemPath itemRelativePath children
        ⟨sub.entries, itemPath :: sub.visited, sub.skippedPaths⟩
end

/-- The archive written by `zip.writeZip(outputPath)`: its location and
its entries. -/
structure WrittenZip where
  outputPath : String
  entries : List ZipEntry
deriving DecidableEq

/-- `createZipArchive` of the current revision (src/main.ts lines
237-286): walk the source tree from `(sourceDir, '')` and write the
archive to `outputPath`. -/
def createZipArchive (sourceTree : FSForest) (sourceDir outputPath : String)
    (ignoreList : List String) : WrittenZip :=
  ⟨outputPath, (addFilesToZip ignoreList sourceDir "" sourceTree).entries⟩

mutual
/-- `addFilesToZip` of the legacy `/repo/index` revision (src/main.ts
lines 428-458), transcribed from that revision's text. -/
def addFilesToZipLegacy (ignoreList : List String) (currentPath relativePath : String) :
    FSForest → WalkResult
  | .nil => ⟨[], [], []⟩
  | .cons item rest =>
      WalkResult.app (addOneItemLegacy ignoreList currentPath relativePath item)
        (addFilesToZipLegacy ignoreList currentPath relativePath rest)
/-- The loop body of the legacy revision's `addFilesToZip`. -/
def addOneItemLegacy (ignoreList : List String) (currentPath relativePath : String) :
    FSTree → WalkResult
  | .file n =>
      let itemPath := pathJoin currentPath n
      let itemRelativePath := if relativePath = "" then n else pathJoin relativePath n
      if ignoreList.any (fun ig => strContains itemPath ig) then ⟨[], [], [itemPath]⟩
      else ⟨[⟨itemPath, dirnameStr itemRelativePath, basenameStr itemRelativePath⟩],
            [itemPath], []⟩
  | .dir n children =>
      let itemPath := pathJoin currentPath n
      let itemRelativePath := if relativePath = "" then n else pathJoin relativePath n
      if ignoreList.any (fun ig => strContains itemPath ig) then ⟨[], [], [itemPath]⟩
      else
        let sub := addFilesToZipLegacy ignoreList itemPath itemRelativePath children
        ⟨sub.entries, itemPath :: sub.visited, sub.skippedPaths⟩
end

/-- `createZipArchive` of the legacy `/repo/index` revision (src/main.ts
lines 418-467). -/
def createZipArchiveLegacy (sourceTree : FSForest) (sourceDir outputPath : String)
    (ignoreList : List String) : WrittenZip :=
  ⟨outputPath, (addFilesToZipLegacy ignoreList sourceDir "" sourceTree).entries⟩

/-- Left fold of `path.join` along a list of segments, i.e. the full
path of an item reached from `base` through those segments. -/
def absJoin (base : String) (segs : List String) : String :=
  segs.foldl pathJoin base

/-- One step of the walker's relative-path accumulation
(`relativePath ? path.join(relativePath, item) : item`). -/
def relExtend (rel item : String) : String :=
  if rel = "" then item else pathJoin rel item

/-- The walker's relative path after descending through `segs`. -/
def relFold (rel : String) (segs : List String) : String :=
  segs.foldl relExtend rel

/-- Slash-join of a segment list (`""` for the empty list). -/
def joinSegs : List String → String
  | [] => ""
  | x :: xs => xs.foldl pathJoin x

/-- Membership of an entry in a directory listing. -/
inductive FMem : FSTree → FSForest → Prop where
  | head (t : FSTree) (rest : FSForest) : FMem t (.cons t rest)
  | tail (t u : FSTree) (rest : FSForest) : FMem t rest → FMem t (.cons u rest)

/-- `FileAt f ds nm`: descending from listing `f` through directories
named `ds` (in order) reaches a regular file named `nm`. -/
inductive FileAt : FSForest → List String → String → Prop where
  | here {f : FSForest} {nm : String} : FMem (.file nm) f → FileAt f [] nm
  | there {f : FSForest} {d : String} {dcs : FSForest} {ds : List String}
      {nm : String} :
      FMem (.dir d dcs) f → FileAt dcs ds nm → FileAt f (d :: ds) nm

/-- `DirAt f ds n cs`: descending from listing `f` through directories
named `ds` reaches a directory named `n` with children `cs`. -/
inductive DirAt : FSForest → List String → String → FSForest → Prop where
  | here {f : FSForest} {n : String} {cs : FSForest} :
      FMem (.dir n cs) f → DirAt f [] n cs
  | there {f : FSForest} {d : String} {dcs : FSForest} {ds : List String}
      {n : String} {cs : FSForest} :
      FMem (.dir d dcs) f → DirAt dcs ds n cs → DirAt f (d :: ds) n cs

mutual
/-- Full paths of all entries strictly beneath `base` in one tree. -/
def descPathsTree (base : String) : FSTree → List String
  | .file n => [pathJoin base n]
  | .dir n cs => pathJoin base n :: descPathsForest (pathJoin base n) cs
/-- Full paths of all entries strictly beneath `base` in a listing. -/
def descPathsForest (base : String) : FSForest → List String
  | .nil => []
  | .cons t rest => descPathsTree base t ++ descPathsForest base rest
end

set_option maxRecDepth 40000

theorem strContains_iff {s pat : String} :
    strContains s pat = true ↔ pat.data <:+: s.data := by
  simp [strContains]

theorem strContains_append_left (a b ig : String)
    (h : strContains a ig = true) : strContains (a ++ b) ig = true := by
  rw [strContains_iff] at h ⊢
  refine h.trans ⟨[], b.data, ?_⟩
  simp

/-- Claim C1: on the repository's own test record, the formatter output
contains the summary header and the Updated/Created/Deleted counters,
but none of the substrings "Repository Updated: Yes", "Current: 33",
"Cached: 33", "Synchronized with CMS: 2" that the repository's unit test
demands: the source formatter only ever emits
Uploaded/Created/Updated/Deleted/Retained lines. -/
theorem formatPumpRoomResponse_misses_test_fields :
    (strContains (formatPumpRoomResponse (fun _ => testLocaleDate) testResponseRecord)
        "PumpRoom Repository Update Summary" = true) ∧
    (strContains (formatPumpRoomResponse (fun _ => testLocaleDate) testResponseRecord)
        "Updated: 33" = true) ∧
    (strContains (formatPumpRoomResponse (fun _ => testLocaleDate) testResponseRecord)
        "Created: 0" = true) ∧
    (strContains (formatPumpRoomResponse (fun _ => testLocaleDate) testResponseRecord)
        "Deleted: 1" = true) ∧
    (strContains (formatPumpRoomResponse (fun _ => testLocaleDate) testResponseRecord)
        "Repository Updated: Yes" = false) ∧
    (strContains (formatPumpRoomResponse (fun _ => testLocaleDate) testResponseRecord)
        "Current: 33" = false) ∧
    (strContains (formatPumpRoomResponse (fun _ => testLocaleDate) testResponseRecord)
        "Cached: 33" = false) ∧
    (strContains (formatPumpRoomResponse (fun _ => testLocaleDate) testResponseRecord)
        "Synchronized with CMS: 2" = false) := by
  decide

/-- Claim C9: the formatter is a pure function of the response record
(relative to one fixed date-rendering environment): equal inputs give
equal outputs, and being a Lean function it has no side effects. -/
theorem formatPumpRoomResponse_deterministic (fmt : String → String)
    (r₁ r₂ : PumpRoomApiResponse) (h : r₁ = r₂) :
    formatPumpRoomResponse fmt r₁ = formatPumpRoomResponse fmt r₂ := by
  rw [h]

theorem formatPumpRoomResponse_deterministic_witness :
    formatPumpRoomResponse id testResponseRecord =
      formatPumpRoomResponse id testResponseRecord :=
  formatPumpRoomResponse_deterministic id testResponseRecord testResponseRecord rfl

/-- Claim C5: when `.inzhenerka.yml` is absent, `validateInzhenerkaYml`
performs no HTTP request and fails with a "file not found" error. -/
theorem validateInzhenerkaYml_absent_file (env : YmlEnv)
    (h : env.fileExists = false) :
    (validateInzhenerkaYml env).2 = [] ∧
    ∃ m, (validateInzhenerkaYml env).1 = .error (.err m) ∧
      strContains m "file not found" = true := by
  unfold validateInzhenerkaYml
  rw [h]
  exact ⟨rfl, "❌ .inzhenerka.yml file not found", rfl, by decide⟩

theorem validateInzhenerkaYml_absent_file_witness :
    (validateInzhenerkaYml ⟨false, "tasks: []", .ok 200⟩).2 = [] ∧
    ∃ m, (validateInzhenerkaYml ⟨false, "tasks: []", .ok 200⟩).1 = .error (.err m) ∧
      strContains m "file not found" = true :=
  validateInzhenerkaYml_absent_file ⟨false, "tasks: []", .ok 200⟩ rfl

/-- Claim C6: a non-`Error` value raised inside a validation stage is
rethrown as the stage's fixed sentinel, and a standard `Error` is
propagated unchanged, for both `validateUniqueFolderNames` and
`validateInzhenerkaYml`. -/
theorem validation_nonError_sentinels :
    (validateUniqueFolderNames (.error .nonError) =
      .error (.err "Unknown error during folder validation")) ∧
    (∀ m, validateUniqueFolderNames (.error (.err m)) = .error (.err m)) ∧
    (∀ env : YmlEnv, env.fileExists = true → env.post = .thrownNonError →
      (validateInzhenerkaYml env).1 =
        .error (.err "Unknown error during configuration validation")) ∧
    (∀ (env : YmlEnv) (m : String),
      env.fileExists = true → env.post = .thrownErr m →
      (validateInzhenerkaYml env).1 = .error (.err m)) := by
  refine ⟨rfl, fun m => rfl, ?_, ?_⟩
  · intro env h1 h2
    unfold validateInzhenerkaYml
    rw [h1, h2]
    rfl
  · intro env m h1 h2
    unfold validateInzhenerkaYml
    rw [h1, h2]
    rfl

theorem validation_nonError_sentinels_witness :
    (validateInzhenerkaYml ⟨true, "tasks: []", .thrownNonError⟩).1 =
      .error (.err "Unknown error during configuration validation") :=
  validation_nonError_sentinels.2.2.1 ⟨true, "tasks: []", .thrownNonError⟩ rfl rfl

/-- Claim C8: a standard `Error` raised by the filesystem enumeration of
the folder-validation stage is reported by `run` verbatim as the failure
message, with no later stage executed. -/
theorem run_folder_error_verbatim (env : RunEnv) (m : String)
    (h : env.readdir = .error (.err m)) :
    (run env).failedMsg = some m ∧ (run env).events = [] := by
  have hv : validateUniqueFolderNames env.readdir = .error (.err m) := by
    rw [h]; rfl
  simp [run, hv, thrownMessage]

theorem run_folder_error_verbatim_witness :
    (run ⟨.error (.err "File system error"), ⟨true, "tasks: []", .ok 200⟩,
        .ok (), .ok ()⟩).failedMsg = some "File system error" ∧
    (run ⟨.error (.err "File system error"), ⟨true, "tasks: []", .ok 200⟩,
        .ok (), .ok ()⟩).events = [] :=
  run_folder_error_verbatim
    ⟨.error (.err "File system error"), ⟨true, "tasks: []", .ok 200⟩, .ok (), .ok ()⟩
    "File system error" rfl

/-- Claim C7: `run` unlinks the temporary archive exactly on the success
path, after the upload completes; on any stage failure it reports a
failure and attempts no deletion. -/
theorem run_cleanup_only_on_success (env : RunEnv) :
    ((.unlinkedTempZip ∈ (run env).events) ↔ (run env).failedMsg = none) ∧
    ((run env).failedMsg = none →
      (run env).events = [.folderValidated, .ymlValidated, .archiveCreated,
        .archiveUploaded, .unlinkedTempZip]) ∧
    (∀ m, (run env).failedMsg = some m →
      .unlinkedTempZip ∉ (run env).events) := by
  cases hv : validateUniqueFolderNames env.readdir with
  | error t => simp [run, hv]
  | ok _ =>
    cases hy : (validateInzhenerkaYml env.yml).1 with
    | error t => simp [run, hv, hy]
    | ok _ =>
      cases hz : env.zipResult with
      | error t => simp [run, hv, hy, hz]
      | ok _ =>
        cases hu : env.uploadResult with
        | error t => simp [run, hv, hy, hz, hu]
        | ok _ => simp [run, hv, hy, hz, hu]

theorem run_cleanup_only_on_success_witness :
    RunEvent.unlinkedTempZip ∉
      (run ⟨.error .nonError, ⟨true, "tasks: []", .ok 200⟩, .ok (), .ok ()⟩).events :=
  (run_cleanup_only_on_success
      ⟨.error .nonError, ⟨true, "tasks: []", .ok 200⟩, .ok (), .ok ()⟩).2.2
    "Unknown error during folder validation" rfl

mutual
theorem addOneItem_legacy_eq (il : List String) (cur rel : String) :
    ∀ t : FSTree, addOneItem il cur rel t = addOneItemLegacy il cur rel t
  | .file n => by simp [addOneItem, addOneItemLegacy]
  | .dir n children => by
      simp only [addOneItem, addOneItemLegacy,
        addFilesToZip_legacy_eq il (pathJoin cur n)
          (if rel = "" then n else pathJoin rel n) children]
theorem addFilesToZip_legacy_eq (il : List String) (cur rel : String) :
    ∀ f : FSForest, addFilesToZip il cur rel f = addFilesToZipLegacy il cur rel f
  | .nil => rfl
  | .cons t rest => by
      simp only [addFilesToZip, addFilesToZipLegacy,
        addOneItem_legacy_eq il cur rel t, addFilesToZip_legacy_eq il cur rel rest]
end

/-- Claim C10: the two `createZipArchive` revisions are extensionally
equal: for every source tree, source directory, output path and ignore
list they produce the same archive, and their walkers produce the same
trace (same entries, same visited paths, same skipped paths) from any
starting point. -/
theorem createZipArchive_revisions_equal :
    ∀ (sourceTree : FSForest) (sourceDir outputPath : String)
      (ignoreList : List String),
      createZipArchive sourceTree sourceDir outputPath ignoreList =
        createZipArchiveLegacy sourceTree sourceDir outputPath ignoreList ∧
      ∀ currentPath relativePath,
        addFilesToZip ignoreList currentPath relativePath sourceTree =
          addFilesToZipLegacy ignoreList currentPath relativePath sourceTree := by
  intro t s o il
  constructor
  · simp [createZipArchive, createZipArchiveLegacy, addFilesToZip_legacy_eq]
  · intro c r
    exact addFilesToZip_legacy_eq il c r t

mutual
theorem addOneItem_guard_pass (il : List String) (cur rel : String) :
    ∀ t : FSTree,
      (∀ e ∈ (addOneItem il cur rel t).entries,
        ∀ ig ∈ il, strContains e.srcPath ig = false) ∧
      (∀ p ∈ (addOneItem il cur rel t).visited,
        ∀ ig ∈ il, strContains p ig = false)
  | .file n => by
      cases hg : il.any (fun ig => strContains (pathJoin cur n) ig) with
      | true => simp [addOneItem, hg]
      | false =>
        have hall := List.any_eq_false.mp hg
        constructor
        · intro e he ig hig
          simp [addOneItem, hg] at he
          rw [he]
          simpa using hall ig hig
        · intro p hp ig hig
          simp [addOneItem, hg] at hp
          rw [hp]
          simpa using hall ig hig
  | .dir n children => by
      cases hg : il.any (fun ig => strContains (pathJoin cur n) ig) with
      | true => simp [addOneItem, hg]
      | false =>
        have hall := List.any_eq_false.mp hg
        obtain ⟨ihe, ihv⟩ := addFilesToZip_guard_pass il (pathJoin cur n)
          (if rel = "" then n else pathJoin rel n) children
        constructor
        · intro e he ig hig
          simp only [addOneItem, hg, Bool.false_eq_true, if_false] at he
          exact ihe e he ig hig
        · intro p hp ig hig
          simp only [addOneItem, hg, Bool.false_eq_true, if_false,
            List.mem_cons] at hp
          cases hp with
          | inl h => rw [h]; simpa using hall ig hig
          | inr h => exact ihv p h ig hig
theorem addFilesToZip_guard_pass (il : List String) (cur rel : String) :
    ∀ f : FSForest,
      (∀ e ∈ (addFilesToZip il cur rel f).entries,
        ∀ ig ∈ il, strContains e.srcPath ig = false) ∧
      (∀ p ∈ (addFilesToZip il cur rel f).visited,
        ∀ ig ∈ il, strContains p ig = false)
  | .nil => by simp [addFilesToZip]
  | .cons t rest => by
      obtain ⟨te, tv⟩ := addOneItem_guard_pass il cur rel t
      obtain ⟨re, rv⟩ := addFilesToZip_guard_pass il cur rel rest
      constructor
      · intro e he ig hig
        simp only [addFilesToZip, WalkResult.app, List.mem_append] at he
        cases he with
        | inl h => exact te e h ig hig
        | inr h => exact re e h ig hig
      · intro p hp ig hig
        simp only [addFilesToZip, WalkResult.app, List.mem_append] at hp
        cases hp with
        | inl h => exact tv p h ig hig
        | inr h => exact rv p h ig hig
end

mutual
theorem descPathsTree_ext (base : String) :
    ∀ t : FSTree, ∀ p ∈ descPathsTree base t, ∃ s, p = base ++ "/" ++ s
  | .file n => by
      intro p hp
      simp [descPathsTree] at hp
      exact ⟨n, hp⟩
  | .dir n cs => by
      intro p hp
      simp only [descPathsTree, List.mem_cons] at hp
      cases hp with
      | inl h => exact ⟨n, h⟩
      | inr h =>
        obtain ⟨s, hs⟩ := descPathsForest_ext (pathJoin base n) cs p h
        refine ⟨n ++ "/" ++ s, ?_⟩
        rw [hs]
        simp [pathJoin, String.append_assoc]
theorem descPathsForest_ext (base : String) :
    ∀ f : FSForest, ∀ p ∈ descPathsForest base f, ∃ s, p = base ++ "/" ++ s
  | .nil => by simp [descPathsForest]
  | .cons t rest => by
      intro p hp
      simp only [descPathsForest, List.mem_append] at hp
      cases hp with
      | inl h => exact descPathsTree_ext base t p h
      | inr h => exact descPathsForest_ext base rest p h
end

/-- Claim C2: no archive entry's full source path contains an ignore
fragment, and a directory whose full path contains a fragment is pruned:
none of the paths beneath it is visited or archived. -/
theorem createZipArchive_respects_ignoreList (il : List String)
    (srcDir : String) (tree : FSForest) :
    (∀ e ∈ (addFilesToZip il srcDir "" tree).entries,
      ∀ ig ∈ il, strContains e.srcPath ig = false) ∧
    (∀ (ds : List String) (n : String) (cs : FSForest), DirAt tree ds n cs →
      ∀ ig ∈ il, strContains (absJoin srcDir (ds ++ [n])) ig = true →
      ∀ p ∈ descPathsForest (absJoin srcDir (ds ++ [n])) cs,
        p ∉ (addFilesToZip il srcDir "" tree).visited ∧
        ∀ e ∈ (addFilesToZip il srcDir "" tree).entries, e.srcPath ≠ p) := by
  obtain ⟨he, hv⟩ := addFilesToZip_guard_pass il srcDir "" tree
  refine ⟨he, ?_⟩
  intro ds n cs _ ig hig hcont p hp
  obtain ⟨s, rfl⟩ := descPathsForest_ext _ cs p hp
  have hpc : strContains (absJoin srcDir (ds ++ [n]) ++ "/" ++ s) ig = true := by
    have h2 := strContains_append_left (absJoin srcDir (ds ++ [n]))
      ("/" ++ s) ig hcont
    rwa [← String.append_assoc] at h2
  constructor
  · intro hmem
    exact Bool.noConfusion (hpc.symm.trans (hv _ hmem ig hig))
  · intro e hmem heq
    rw [← heq] at hpc
    exact Bool.noConfusion (hpc.symm.trans (he e hmem ig hig))

theorem createZipArchive_respects_ignoreList_witness :
    "repo/.git/config" ∉
      (addFilesToZip [".git"] "repo" ""
        (.cons (.dir ".git" (.cons (.file "config") .nil)) .nil)).visited :=
  ((createZipArchive_respects_ignoreList [".git"] "repo"
      (.cons (.dir ".git" (.cons (.file "config") .nil)) .nil)).2
    [] ".git" (.cons (.file "config") .nil)
    (DirAt.here (FMem.head _ _))
    ".git" (by simp)
    (by decide)
    "repo/.git/config" (by decide)).1

theorem takeWhile_append_sat {α : Type} (p : α → Bool) (y : α) (ys : List α) :
    ∀ xs : List α, (∀ x ∈ xs, p x = true) → p y = false →
      (xs ++ y :: ys).takeWhile p = xs
  | [], _, hy => by simp [List.takeWhile_cons, hy]
  | x :: xs, hall, hy => by
      have hx : p x = true := hall x (by simp)
      simp only [List.cons_append, List.takeWhile_cons, hx, if_true]
      rw [takeWhile_append_sat p y ys xs (fun a ha => hall a (by simp [ha])) hy]

theorem dropWhile_append_sat {α : Type} (p : α → Bool) (y : α) (ys : List α) :
    ∀ xs : List α, (∀ x ∈ xs, p x = true) → p y = false →
      (xs ++ y :: ys).dropWhile p = y :: ys
  | [], _, hy => by simp [List.dropWhile_cons, hy]
  | x :: xs, hall, hy => by
      have hx : p x = true := hall x (by simp)
      simp only [List.cons_append, List.dropWhile_cons, hx, if_true]
      exact dropWhile_append_sat p y ys xs (fun a ha => hall a (by simp [ha])) hy

theorem takeWhile_sat_all {α : Type} (p : α → Bool) :
    ∀ xs : List α, (∀ x ∈ xs, p x = true) → xs.takeWhile p = xs
  | [], _ => rfl
  | x :: xs, hall => by
      have hx : p x = true := hall x (by simp)
      simp only [List.takeWhile_cons, hx, if_true]
      rw [takeWhile_sat_all p xs (fun a ha => hall a (by simp [ha]))]

theorem dropWhile_sat_all {α : Type} (p : α → Bool) :
    ∀ xs : List α, (∀ x ∈ xs, p x = true) → xs.dropWhile p = []
  | [], _ => rfl
  | x :: xs, hall => by
      have hx : p x = true := hall x (by simp)
      simp only [List.dropWhile_cons, hx, if_true]
      exact dropWhile_sat_all p xs (fun a ha => hall a (by simp [ha]))

theorem data_pathJoin (a b : String) :
    (pathJoin a b).data = a.data ++ '/' :: b.data := by
  simp [pathJoin, String.data_append]

theorem basenameStr_pathJoin (q nm : String) (h : ∀ c ∈ nm.data, c ≠ '/') :
    basenameStr (pathJoin q nm) = nm := by
  unfold basenameStr
  rw [data_pathJoin, List.reverse_append, List.reverse_cons, List.append_assoc,
    List.singleton_append]
  rw [takeWhile_append_sat _ _ _ nm.data.reverse
    (fun c hc => bne_iff_ne.mpr (h c (List.mem_reverse.mp hc))) (by decide)]
  rw [List.reverse_reverse]

theorem dirnameStr_pathJoin (q nm : String) (h : ∀ c ∈ nm.data, c ≠ '/') :
    dirnameStr (pathJoin q nm) = q := by
  unfold dirnameStr
  rw [data_pathJoin, List.reverse_append, List.reverse_cons, List.append_assoc,
    List.singleton_append]
  rw [dropWhile_append_sat _ _ _ nm.data.reverse
    (fun c hc => bne_iff_ne.mpr (h c (List.mem_reverse.mp hc))) (by decide)]
  simp

theorem basenameStr_noSlash (nm : String) (h : ∀ c ∈ nm.data, c ≠ '/') :
    basenameStr nm = nm := by
  unfold basenameStr
  rw [takeWhile_sat_all _ nm.data.reverse
    (fun c hc => bne_iff_ne.mpr (h c (List.mem_reverse.mp hc)))]
  rw [List.reverse_reverse]

theorem dirnameStr_noSlash (nm : String) (h : ∀ c ∈ nm.data, c ≠ '/') :
    dirnameStr nm = "." := by
  unfold dirnameStr
  rw [dropWhile_sat_all _ nm.data.reverse
    (fun c hc => bne_iff_ne.mpr (h c (List.mem_reverse.mp hc)))]

theorem pathJoin_ne_empty (a b : String) : pathJoin a b ≠ "" := by
  intro h
  have hd : (pathJoin a b).data = [] := by rw [h]
  rw [data_pathJoin] at hd
  simp at hd

theorem relFold_eq_foldl_pathJoin :
    ∀ (l : List String) (r : String), r ≠ "" → relFold r l = l.foldl pathJoin r
  | [], _, _ => rfl
  | x :: xs, r, h => by
      have hx : relExtend r x = pathJoin r x := by simp [relExtend, h]
      show relFold (relExtend r x) xs = xs.foldl pathJoin (pathJoin r x)
      rw [hx]
      exact relFold_eq_foldl_pathJoin xs (pathJoin r x) (pathJoin_ne_empty r x)

theorem relFold_empty_eq_joinSegs :
    ∀ l : List String, (∀ s ∈ l, s ≠ "") → relFold "" l = joinSegs l
  | [], _ => rfl
  | x :: xs, hall => by
      show relFold (relExtend "" x) xs = joinSegs (x :: xs)
      have hx : relExtend "" x = x := by simp [relExtend]
      rw [hx]
      exact relFold_eq_foldl_pathJoin xs x (hall x (by simp))

theorem joinSegs_append_single (ds : List String) (nm : String) (h : ds ≠ []) :
    joinSegs (ds ++ [nm]) = pathJoin (joinSegs ds) nm := by
  cases ds with
  | nil => exact absurd rfl h
  | cons d ds' => simp [joinSegs, List.foldl_append]

theorem fmem_walk_sub (il : List String) (cur rel : String) (t : FSTree) :
    ∀ f : FSForest, FMem t f →
      ∀ e ∈ (addOneItem il cur rel t).entries,
        e ∈ (addFilesToZip il cur rel f).entries
  | .nil, hm => by cases hm
  | .cons u rest, hm => by
      cases hm with
      | head =>
        intro e he
        simp only [addFilesToZip, WalkResult.app, List.mem_append]
        exact .inl he
      | tail _ _ hm' =>
        intro e he
        simp only [addFilesToZip, WalkResult.app, List.mem_append]
        exact .inr (fmem_walk_sub il cur rel t rest hm' e he)

theorem entry_of_fileAt (il : List String) :
    ∀ (f : FSForest) (ds : List String) (nm : String), FileAt f ds nm →
    ∀ cur rel : String,
    (∀ k, k < (ds ++ [nm]).length →
      ∀ ig ∈ il, strContains (absJoin cur ((ds ++ [nm]).take (k+1))) ig = false) →
    ZipEntry.mk (absJoin cur (ds ++ [nm]))
      (dirnameStr (relFold rel (ds ++ [nm])))
      (basenameStr (relFold rel (ds ++ [nm]))) ∈
      (addFilesToZip il cur rel f).entries := by
  intro f ds nm h
  induction h with
  | @here f' nm' hm =>
    intro cur rel hpass
    have hp : ∀ ig ∈ il, strContains (pathJoin cur nm') ig = false := by
      have h0 := hpass 0 (by simp)
      simpa [absJoin] using h0
    have hg : (il.any fun ig => strContains (pathJoin cur nm') ig) = false := by
      rw [List.any_eq_false]
      intro ig hig
      simp [hp ig hig]
    have hone : ZipEntry.mk (pathJoin cur nm') (dirnameStr (relExtend rel nm'))
        (basenameStr (relExtend rel nm')) ∈
        (addOneItem il cur rel (.file nm')).entries := by
      simp [addOneItem, hg, relExtend]
    have hsub := fmem_walk_sub il cur rel _ f' hm _ hone
    simpa [absJoin, relFold] using hsub
  | @there f' d dcs ds' nm' hm _ ih =>
    intro cur rel hpass
    have hd : ∀ ig ∈ il, strContains (pathJoin cur d) ig = false := by
      have h0 := hpass 0 (by simp)
      simpa [absJoin] using h0
    have hg : (il.any fun ig => strContains (pathJoin cur d) ig) = false := by
      rw [List.any_eq_false]
      intro ig hig
      simp [hd ig hig]
    have hshift : ∀ k, k < (ds' ++ [nm']).length →
        ∀ ig ∈ il, strContains
          (absJoin (pathJoin cur d) ((ds' ++ [nm']).take (k+1))) ig = false := by
      intro k hk ig hig
      have h1 := hpass (k+1) (by simpa using Nat.succ_lt_succ hk) ig hig
      simpa [absJoin] using h1
    have hrec := ih (pathJoin cur d) (relExtend rel d) hshift
    have hone : ZipEntry.mk (absJoin (pathJoin cur d) (ds' ++ [nm']))
        (dirnameStr (relFold (relExtend rel d) (ds' ++ [nm'])))
        (basenameStr (relFold (relExtend rel d) (ds' ++ [nm']))) ∈
        (addOneItem il cur rel (.dir d dcs)).entries := by
      simp only [addOneItem, hg, Bool.false_eq_true, if_false]
      exact hrec
    have hsub := fmem_walk_sub il cur rel _ f' hm _ hone
    simpa [absJoin, relFold] using hsub

theorem fileAt_weaken (t : FSTree) (rest : FSForest) (ds : List String)
    (nm : String) (h : FileAt rest ds nm) : FileAt (.cons t rest) ds nm := by
  cases h with
  | here hm => exact .here (.tail _ _ _ hm)
  | there hm hf => exact .there (.tail _ _ _ hm) hf

mutual
theorem entries_from_files_tree (il : List String) (cur rel : String) :
    ∀ t : FSTree, ∀ e ∈ (addOneItem il cur rel t).entries,
      (∃ nm, t = .file nm ∧ e.srcPath = pathJoin cur nm) ∨
      (∃ d cs ds nm, t = .dir d cs ∧ FileAt cs ds nm ∧
        e.srcPath = absJoin (pathJoin cur d) (ds ++ [nm]))
  | .file n => by
      intro e he
      cases hg : il.any (fun ig => strContains (pathJoin cur n) ig) with
      | true => simp [addOneItem, hg] at he
      | false =>
        simp [addOneItem, hg] at he
        exact Or.inl ⟨n, rfl, by rw [he]⟩
  | .dir n cs => by
      intro e he
      cases hg : il.any (fun ig => strContains (pathJoin cur n) ig) with
      | true => simp [addOneItem, hg] at he
      | false =>
        simp only [addOneItem, hg, Bool.false_eq_true, if_false] at he
        obtain ⟨ds, nm, hf, hp⟩ := entries_from_files_forest il (pathJoin cur n)
          (if rel = "" then n else pathJoin rel n) cs e he
        exact Or.inr ⟨n, cs, ds, nm, rfl, hf, hp⟩
theorem entries_from_files_forest (il : List String) (cur rel : String) :
    ∀ f : FSForest, ∀ e ∈ (addFilesToZip il cur rel f).entries,
      ∃ ds nm, FileAt f ds nm ∧ e.srcPath = absJoin cur (ds ++ [nm])
  | .nil => by simp [addFilesToZip]
  | .cons t rest => by
      intro e he
      simp only [addFilesToZip, WalkResult.app, List.mem_append] at he
      cases he with
      | inl h =>
        rcases entries_from_files_tree il cur rel t e h with
          ⟨nm, rfl, hp⟩ | ⟨d, cs, ds, nm, rfl, hf, hp⟩
        · exact ⟨[], nm, .here (FMem.head _ _), by simpa [absJoin] using hp⟩
        · exact ⟨d :: ds, nm, .there (FMem.head _ _) hf,
            by simpa [absJoin] using hp⟩
      | inr h =>
        obtain ⟨ds, nm, hf, hp⟩ := entries_from_files_forest il cur rel rest e h
        exact ⟨ds, nm, fileAt_weaken t rest ds nm hf, hp⟩
end

/-- Claim C4: a non-ignored regular file reached through directories `ds`
with name `nm` is archived with source path `srcDir/ds/nm`, archive
directory component `joinSegs ds` (`"."` at the root) and base name
`nm`; and conversely every archive entry comes from a file position, so
directories themselves contribute no entry. -/
theorem createZipArchive_preserves_structure (il : List String)
    (srcDir : String) (tree : FSForest) :
    (∀ (ds : List String) (nm : String), FileAt tree ds nm →
      (∀ s ∈ ds, s ≠ "" ∧ ∀ c ∈ s.data, c ≠ '/') →
      nm ≠ "" → (∀ c ∈ nm.data, c ≠ '/') →
      (∀ k, k < (ds ++ [nm]).length →
        ∀ ig ∈ il, strContains (absJoin srcDir ((ds ++ [nm]).take (k+1))) ig = false) →
      ZipEntry.mk (absJoin srcDir (ds ++ [nm]))
        (if ds.isEmpty then "." else joinSegs ds) nm ∈
        (addFilesToZip il srcDir "" tree).entries) ∧
    (∀ e ∈ (addFilesToZip il srcDir "" tree).entries,
      ∃ ds nm, FileAt tree ds nm ∧ e.srcPath = absJoin srcDir (ds ++ [nm])) := by
  constructor
  · intro ds nm hfile hds hnm hnmsl hpass
    have hmem := entry_of_fileAt il tree ds nm hfile srcDir "" hpass
    have hall : ∀ s ∈ ds ++ [nm], s ≠ "" := by
      intro s hs
      rcases List.mem_append.mp hs with h | h
      · exact (hds s h).1
      · simp at h
        rw [h]
        exact hnm
    rw [relFold_empty_eq_joinSegs _ hall] at hmem
    cases ds with
    | nil =>
      have hj : joinSegs ([] ++ [nm]) = nm := by simp [joinSegs]
      rw [hj, dirnameStr_noSlash nm hnmsl, basenameStr_noSlash nm hnmsl] at hmem
      simpa using hmem
    | cons d ds' =>
      have hj := joinSegs_append_single (d :: ds') nm (by simp)
      rw [hj, dirnameStr_pathJoin _ nm hnmsl, basenameStr_pathJoin _ nm hnmsl] at hmem
      simpa using hmem
  · exact entries_from_files_forest il srcDir "" tree

theorem createZipArchive_preserves_structure_witness :
    ZipEntry.mk "root/a/b/c.txt" "a/b" "c.txt" ∈
      (addFilesToZip [] "root" ""
        (.cons (.dir "a" (.cons (.dir "b" (.cons (.file "c.txt") .nil)) .nil))
          .nil)).entries := by
  have h := (createZipArchive_preserves_structure [] "root"
      (.cons (.dir "a" (.cons (.dir "b" (.cons (.file "c.txt") .nil)) .nil))
        .nil)).1
    ["a", "b"] "c.txt"
    (FileAt.there (FMem.head _ _)
      (FileAt.there (FMem.head _ _) (FileAt.here (FMem.head _ _))))
    (by decide) (by decide) (by decide)
    (by intro k hk ig hig; simp at hig)
  have hconv : ZipEntry.mk (absJoin "root" (["a", "b"] ++ ["c.txt"]))
      (if (["a", "b"] : List String).isEmpty then "." else joinSegs ["a", "b"])
      "c.txt" = ZipEntry.mk "root/a/b/c.txt" "a/b" "c.txt" := by decide
  exact hconv ▸ h

theorem lookupKey_insertFolder (m : List (String × List String)) (f k : String) :
    lookupKey (insertFolder m f) k =
      lookupKey m k ++ (if toLowerStr f == k then [f] else []) := by
  unfold insertFolder
  cases hany : m.any (fun p => p.1 == toLowerStr f) with
  | false =>
    rw [if_neg Bool.false_ne_true]
    unfold lookupKey
    rw [List.find?_append]
    by_cases hk : toLowerStr f = k
    · subst hk
      have hnone : m.find? (fun p => p.1 == toLowerStr f) = none := by
        rw [List.find?_eq_none]
        intro p hp
        simpa using List.any_eq_false.mp hany p hp
      rw [hnone]
      simp
    · have hbeq : (toLowerStr f == k) = false := by simpa using hk
      have hone : ([(toLowerStr f, [f])] :
          List (String × List String)).find? (fun p => p.1 == k) = none := by
        simp [List.find?, hbeq]
      rw [hone]
      simp [hbeq]
  | true =>
    rw [if_pos rfl]
    unfold lookupKey
    rw [List.find?_map]
    have hcomp : ((fun p : String × List String => p.1 == k) ∘
        (fun p : String × List String =>
          if p.1 == toLowerStr f then (p.1, p.2 ++ [f]) else p)) =
        fun p : String × List String => p.1 == k := by
      funext p
      by_cases h : (p.1 == toLowerStr f) = true <;> simp [Function.comp, h]
    rw [hcomp]
    by_cases hk : toLowerStr f = k
    · subst hk
      obtain ⟨p, hp, hpk⟩ := List.any_eq_true.mp hany
      cases hfm : m.find? (fun q => q.1 == toLowerStr f) with
      | none =>
        exfalso
        rw [List.find?_eq_none] at hfm
        exact hfm p hp hpk
      | some q =>
        have hq : q.1 = toLowerStr f := by
          simpa using List.find?_some hfm
        simp [hfm, hq]
    · have hbeq : (toLowerStr f == k) = false := by simpa using hk
      simp only [hbeq, Bool.false_eq_true, if_false, List.append_nil]
      cases hfm : m.find? (fun q => q.1 == k) with
      | none => simp [hfm]
      | some q =>
        have hq1 : q.1 = k := by simpa using List.find?_some hfm
        have hqf : q.1 ≠ toLowerStr f := by
          rw [hq1]
          intro he
          exact hk he.symm
        simp [hfm, hqf]

theorem lookupKey_foldl_insertFolder :
    ∀ (fs : List String) (m : List (String × List String)) (k : String),
      lookupKey (fs.foldl insertFolder m) k =
        lookupKey m k ++ fs.filter (fun f => toLowerStr f == k)
  | [], m, k => by simp
  | f :: fs, m, k => by
      simp only [List.foldl_cons, List.filter_cons]
      rw [lookupKey_foldl_insertFolder fs (insertFolder m f) k,
        lookupKey_insertFolder m f k]
      by_cases h : (toLowerStr f == k) = true
      · simp [h]
      · simp [h]

theorem lookupKey_buildFolderMap (fs : List String) (k : String) :
    lookupKey (buildFolderMap fs) k = fs.filter (fun f => toLowerStr f == k) := by
  have h := lookupKey_foldl_insertFolder fs [] k
  simpa [buildFolderMap, lookupKey] using h

theorem keys_insertFolder (m : List (String × List String)) (f : String) :
    (insertFolder m f).map Prod.fst =
      if m.any (fun p => p.1 == toLowerStr f) then m.map Prod.fst
      else m.map Prod.fst ++ [toLowerStr f] := by
  unfold insertFolder
  cases hany : m.any (fun p => p.1 == toLowerStr f) with
  | false =>
    rw [if_neg Bool.false_ne_true, if_neg Bool.false_ne_true]
    simp
  | true =>
    rw [if_pos rfl, if_pos rfl]
    simp only [List.map_map]
    apply List.map_congr_left
    intro p _
    by_cases h : p.1 = toLowerStr f <;> simp [Function.comp, h]

theorem keys_nodup_foldl :
    ∀ (fs : List String) (m : List (String × List String)),
      (m.map Prod.fst).Nodup → ((fs.foldl insertFolder m).map Prod.fst).Nodup
  | [], _, h => h
  | f :: fs, m, h => by
      apply keys_nodup_foldl fs
      rw [keys_insertFolder]
      cases hany : m.any (fun p => p.1 == toLowerStr f) with
      | true => simpa using h
      | false =>
        have hnotin : toLowerStr f ∉ m.map Prod.fst := by
          intro hmem
          obtain ⟨p, hp, hpk⟩ := List.mem_map.mp hmem
          have hfalse := List.any_eq_false.mp hany p hp
          simp [hpk] at hfalse
        simp [List.nodup_append, h, hnotin]

theorem keys_nodup_buildFolderMap (fs : List String) :
    ((buildFolderMap fs).map Prod.fst).Nodup :=
  keys_nodup_foldl fs [] (by simp)

theorem find?_of_mem_nodup :
    ∀ m : List (String × List String), (m.map Prod.fst).Nodup →
      ∀ p ∈ m, m.find? (fun q => q.1 == p.1) = some p
  | [], _, p, hp => by simp at hp
  | q :: m', hnd, p, hp => by
      rcases List.mem_cons.mp hp with rfl | hp'
      · simp [List.find?]
      · have hkeys : (q.1 :: m'.map Prod.fst).Nodup := by simpa using hnd
        have h1 : q.1 ∉ m'.map Prod.fst := (List.nodup_cons.mp hkeys).1
        have h2 : p.1 ∈ m'.map Prod.fst := List.mem_map.mpr ⟨p, hp', rfl⟩
        have hne : (q.1 == p.1) = false := by
          simp only [beq_eq_false_iff_ne, ne_eq]
          intro he
          rw [he] at h1
          exact h1 h2
        simp only [List.find?, hne]
        exact find?_of_mem_nodup m' (List.nodup_cons.mp hkeys).2 p hp'

theorem mem_duplicates_iff (fs : List String) (k : String) :
    k ∈ ((buildFolderMap fs).filter (fun p => 1 < p.2.length)).map (fun p => p.1) ↔
      1 < (fs.filter (fun f => toLowerStr f == k)).length := by
  constructor
  · intro hk
    obtain ⟨p, hpf, rfl⟩ := List.mem_map.mp hk
    obtain ⟨hpm, hplen⟩ := List.mem_filter.mp hpf
    have hfind := find?_of_mem_nodup (buildFolderMap fs)
      (keys_nodup_buildFolderMap fs) p hpm
    have hlk : fs.filter (fun f => toLowerStr f == p.1) = p.2 := by
      rw [← lookupKey_buildFolderMap fs p.1]
      unfold lookupKey
      rw [hfind]
      rfl
    rw [hlk]
    simpa using hplen
  · intro hlen
    have hlk := lookupKey_buildFolderMap fs k
    cases hfm : (buildFolderMap fs).find? (fun p => p.1 == k) with
    | none =>
      exfalso
      have hnil : fs.filter (fun f => toLowerStr f == k) = [] := by
        rw [← hlk]
        unfold lookupKey
        rw [hfm]
        rfl
      rw [hnil] at hlen
      simp at hlen
    | some q =>
      have hq1 : q.1 = k := by simpa using List.find?_some hfm
      have hqm : q ∈ buildFolderMap fs := List.mem_of_find?_eq_some hfm
      have hq2 : fs.filter (fun f => toLowerStr f == k) = q.2 := by
        rw [← hlk]
        unfold lookupKey
        rw [hfm]
        rfl
      refine List.mem_map.mpr ⟨q, List.mem_filter.mpr ⟨hqm, ?_⟩, hq1⟩
      rw [hq2] at hlen
      simpa using hlen

theorem checkFolderNames_eq (items : List FolderItem) :
    checkFolderNames items =
      if (foldersOf items).length = 0 then .ok ()
      else if 0 < (((buildFolderMap (foldersOf items)).filter
          (fun p => 1 < p.2.length)).map (fun p => p.1)).length then
        .error ("❌ Folder duplicates found:\n" ++
          String.join ((((buildFolderMap (foldersOf items)).filter
            (fun p => 1 < p.2.length)).map (fun p => p.1)).map (fun d =>
            "  • " ++ d ++ " (variants: " ++
            String.intercalate ", " (lookupKey (buildFolderMap (foldersOf items)) d)
            ++ ")\n")))
      else .ok () := rfl

/-- Claim C3: `validateUniqueFolderNames` fails exactly when at least two
listed subdirectories share a lower-cased name, and on failure the single
message lists, one line per collision, every colliding lower-cased key
with all of its original-case variants in the format
`key (variants: v1, v2, ...)`. -/
theorem validateUniqueFolderNames_collisions (items : List FolderItem) :
    ((∃ msg, validateUniqueFolderNames (.ok items) = .error (.err msg)) ↔
      ∃ k, 1 < ((foldersOf items).filter (fun f => toLowerStr f == k)).length) ∧
    (∀ msg, validateUniqueFolderNames (.ok items) = .error (.err msg) →
      ∃ ks : List String, ks.Nodup ∧
        (∀ k, k ∈ ks ↔
          1 < ((foldersOf items).filter (fun f => toLowerStr f == k)).length) ∧
        msg = "❌ Folder duplicates found:\n" ++ String.join (ks.map (fun k =>
          "  • " ++ k ++ " (variants: " ++
          String.intercalate ", "
            ((foldersOf items).filter (fun f => toLowerStr f == k)) ++ ")\n"))) := by
  by_cases h0 : (foldersOf items).length = 0
  · have hok : validateUniqueFolderNames (.ok items) = .ok () := by
      simp [validateUniqueFolderNames, checkFolderNames_eq, h0]
    constructor
    · constructor
      · rintro ⟨msg, hmsg⟩
        rw [hok] at hmsg
        simp at hmsg
      · rintro ⟨k, hk⟩
        have hfs : foldersOf items = [] := List.length_eq_zero.mp h0
        rw [hfs] at hk
        simp at hk
    · intro msg hmsg
      rw [hok] at hmsg
      simp at hmsg
  · by_cases hd : 0 < (((buildFolderMap (foldersOf items)).filter
        (fun p => 1 < p.2.length)).map (fun p => p.1)).length
    · have herr : validateUniqueFolderNames (.ok items) =
          .error (.err ("❌ Folder duplicates found:\n" ++
            String.join ((((buildFolderMap (foldersOf items)).filter
              (fun p => 1 < p.2.length)).map (fun p => p.1)).map (fun d =>
              "  • " ++ d ++ " (variants: " ++
              String.intercalate ", "
                (lookupKey (buildFolderMap (foldersOf items)) d) ++ ")\n")))) := by
        have hd' : 0 < ((buildFolderMap (foldersOf items)).filter
            (fun p => 1 < p.2.length)).length := by
          simpa using hd
        simp [validateUniqueFolderNames, checkFolderNames_eq, h0, hd']
      constructor
      · constructor
        · intro _
          have hne : (((buildFolderMap (foldersOf items)).filter
              (fun p => 1 < p.2.length)).map (fun p => p.1)) ≠ [] := by
            intro h
            rw [h] at hd
            simp at hd
          obtain ⟨k, hk⟩ := List.exists_mem_of_ne_nil _ hne
          exact ⟨k, (mem_duplicates_iff _ k).mp hk⟩
        · intro _
          exact ⟨_, herr⟩
      · intro msg hmsg
        rw [herr] at hmsg
        simp only [Except.error.injEq, Thrown.err.injEq] at hmsg
        refine ⟨((buildFolderMap (foldersOf items)).filter
          (fun p => 1 < p.2.length)).map (fun p => p.1), ?_, ?_, ?_⟩
        · exact (keys_nodup_buildFolderMap (foldersOf items)).sublist
            ((List.filter_sublist _).map _)
        · intro k
          exact mem_duplicates_iff _ k
        · rw [← hmsg]
          have hfun : (fun d => "  • " ++ d ++ " (variants: " ++
              String.intercalate ", "
                (lookupKey (buildFolderMap (foldersOf items)) d) ++ ")\n") =
              (fun k => "  • " ++ k ++ " (variants: " ++
              String.intercalate ", "
                ((foldersOf items).filter (fun f => toLowerStr f == k)) ++ ")\n") := by
            funext d
            rw [lookupKey_buildFolderMap]
          rw [hfun]
    · have hok : validateUniqueFolderNames (.ok items) = .ok () := by
        have hd' : ¬0 < ((buildFolderMap (foldersOf items)).filter
            (fun p => 1 < p.2.length)).length := by
          simpa using hd
        simp [validateUniqueFolderNames, checkFolderNames_eq, h0, hd']
      constructor
      · constructor
        · rintro ⟨msg, hmsg⟩
          rw [hok] at hmsg
          simp at hmsg
        · rintro ⟨k, hk⟩
          exfalso
          have hkd := (mem_duplicates_iff (foldersOf items) k).mpr hk
          exact hd (List.length_pos.mpr (List.ne_nil_of_mem hkd))
      · intro msg hmsg
        rw [hok] at hmsg
        simp at hmsg

theorem validateUniqueFolderNames_collisions_witness :
    ∃ msg, validateUniqueFolderNames (.ok [⟨"Folder1", true⟩, ⟨"folder1", true⟩,
      ⟨"folder2", true⟩, ⟨"file.txt", false⟩]) = .error (.err msg) :=
  (validateUniqueFolderNames_collisions [⟨"Folder1", true⟩, ⟨"folder1", true⟩,
    ⟨"folder2", true⟩, ⟨"file.txt", false⟩]).1.mpr ⟨"folder1", by decide⟩
